import Mathlib

/-!
Shallow embedding of the weekly meal planner core (`src/lib/planner.ts`).

The recipe catalog (`recipes`) is external data imported by the planner; it is
modelled as an explicit `List Recipe` parameter.  Each call to the source's
`shuffle` returns an arbitrary permutation of its argument; shuffles are
modelled as explicit list parameters constrained (in the theorems) to be
permutations of the lists the source shuffles.  `Date.now()` is modelled as an
explicit `now : Int` parameter, and the date-fns based label formatting as an
opaque `dateFmt : Nat → String` giving the label of day `i`.  JS numbers are
modelled as `ℚ`.
-/

namespace MedPlanner

/-- Modelled from the spec: the meal-type tag of a recipe, declared in the
catalog module `recipes.ts` (not under `src/`); §3 fixes it to one of
breakfast/lunch/dinner. -/
inductive MealType
  | breakfast
  | lunch
  | dinner
deriving DecidableEq

/-- The string the source interpolates for a meal type (TS uses the literal
union type values "breakfast" | "lunch" | "dinner"). -/
def mealTypeStr : MealType → String
  | .breakfast => "breakfast"
  | .lunch => "lunch"
  | .dinner => "dinner"

/-- Modelled from the spec: an ingredient entry of a recipe (item name,
optional quantity, optional unit), declared in `recipes.ts` (not under
`src/`). -/
structure Ingredient where
  item : String
  quantity : Option ℚ
  unit : Option String
deriving DecidableEq

/-- Modelled from the spec: a recipe record of the catalog, declared in
`recipes.ts` (not under `src/`).  Only the fields the planner reads are kept;
display-only fields (name, summary, URL, servings) are never consulted by
`planner.ts` and are omitted. -/
structure Recipe where
  id : String
  mealType : MealType
  cuisine : String
  protein : String
  ingredients : List Ingredient
deriving DecidableEq

/-- `ShoppingLineItem` from `planner.ts`. -/
structure ShoppingLineItem where
  item : String
  quantity : Option ℚ
  unit : Option String
deriving DecidableEq

/-- `PlannerRequest` from `planner.ts`; counts are the non-negative integers
of the spec. -/
structure PlannerRequest where
  breakfasts : Nat
  lunches : Nat
  dinners : Nat
  weekOf : Option String
deriving DecidableEq

/-- `PlannedMeal` from `planner.ts`. -/
structure PlannedMeal where
  dayIndex : Nat
  mealType : MealType
  recipe : Recipe
  dateLabel : String
deriving DecidableEq

/-- `HistoryRecord = Record<string, number>`: an insertion-ordered key-value
record, modelled as an association list. -/
abbrev HistoryRecord := List (String × Int)

/-- `PlannerResponse` from `planner.ts`. -/
structure PlannerResponse where
  meals : List PlannedMeal
  shoppingList : List ShoppingLineItem
  updatedHistory : HistoryRecord
deriving DecidableEq

/-- `Set.add`: JS `Set` insertion keeps insertion order and ignores
duplicates. -/
def setAdd (s : List String) (x : String) : List String :=
  if s.contains x then s else s ++ [x]

/-- `recipe.protein === "beef"`. -/
def isBeef (r : Recipe) : Bool := r.protein == "beef"

/-- `["spanish", "mexican"].includes(recipe.cuisine)`. -/
def requiredCuisine (r : Recipe) : Bool :=
  r.cuisine == "spanish" || r.cuisine == "mexican"

/-- The candidate list `pickRecipes` builds before shuffling:
`recipes.filter(r => r.mealType === mealType && !recentHistory.has(r.id))`. -/
def candidatesFor (catalog : List Recipe) (mt : MealType) (recent : List String) :
    List Recipe :=
  catalog.filter (fun r => r.mealType == mt && !(recent.contains r.id))

/-- The `candidates.forEach` loop body of `pickRecipes`, with the mutated
state (`selections`, `chosen`, `beefUsed`) threaded explicitly.  The loop
visits every candidate; a full selection, an already-chosen id, or a second
beef recipe is skipped. -/
def pickScan (count : Nat) :
    List Recipe → List Recipe → List String → Bool →
      List Recipe × List String × Bool
  | [], sels, chosen, beefUsed => (sels, chosen, beefUsed)
  | r :: rest, sels, chosen, beefUsed =>
    if sels.length ≥ count then pickScan count rest sels chosen beefUsed
    else if chosen.contains r.id then pickScan count rest sels chosen beefUsed
    else if isBeef r && beefUsed then pickScan count rest sels chosen beefUsed
    else pickScan count rest (sels ++ [r]) (setAdd chosen r.id)
      (beefUsed || isBeef r)

/-- The message of `new Error` thrown by `pickRecipes`:
``Not enough ${mealType} recipes available without repeats or beef overage.`` -/
def insufficientMsg (mt : MealType) : String :=
  "Not enough " ++ mealTypeStr mt ++
    " recipes available without repeats or beef overage."

/-- `pickRecipes` from `planner.ts`.  `shuffled` is the result of
`shuffle(recipes.filter(...))`; the theorems constrain it to be a permutation
of `candidatesFor catalog mt recent`.  The thrown error is modelled as
`Except.error`. -/
def pickRecipes (mt : MealType) (count : Nat) (shuffled : List Recipe)
    (chosen : List String) (beefAlreadyUsed : Bool) :
    Except String (List Recipe × List String × Bool) :=
  let out := pickScan count shuffled [] chosen beefAlreadyUsed
  if out.1.length < count then .error (insufficientMsg mt)
  else .ok out

/-- The predicate of the `shuffle(recipes).find(...)` call in
`ensureSpanishOrMexican`. -/
def replacementOk (recent chosen : List String) (beefUsed : Bool)
    (toReplace r : Recipe) : Bool :=
  r.mealType == toReplace.mealType &&
  requiredCuisine r &&
  !(recent.contains r.id || chosen.contains r.id) &&
  !(isBeef r && beefUsed)

/-- The message of the `new Error` thrown by `ensureSpanishOrMexican`. -/
def noCuisineMsg : String :=
  "No Spanish or Mexican recipes available that satisfy the rules."

/-- The `for (const toReplace of plan)` loop of `ensureSpanishOrMexican`.
`shuffles i` is the fresh `shuffle(recipes)` drawn on iteration `i`. -/
def ensureLoop (fullPlan : List Recipe) (recent : List String)
    (shuffles : Nat → List Recipe) :
    List Recipe → Nat → List String → Bool →
      Except String (List Recipe × List String × Bool)
  | [], _, _, _ => .error noCuisineMsg
  | toReplace :: rest, i, chosen, beefUsed =>
    match (shuffles i).find? (replacementOk recent chosen beefUsed toReplace) with
    | some candidate =>
      .ok (fullPlan.map (fun r => if r.id == toReplace.id then candidate else r),
        setAdd (chosen.filter (fun x => !(x == toReplace.id))) candidate.id,
        beefUsed || isBeef candidate)
    | none => ensureLoop fullPlan recent shuffles rest (i + 1) chosen beefUsed

/-- `ensureSpanishOrMexican` from `planner.ts`, returning the (mutated)
chosen set alongside the plan and beef flag. -/
def ensureSpanishOrMexican (plan : List Recipe) (recent chosen : List String)
    (beefUsed : Bool) (shuffles : Nat → List Recipe) :
    Except String (List Recipe × List String × Bool) :=
  if plan.any requiredCuisine then .ok (plan, chosen, beefUsed)
  else ensureLoop plan recent shuffles plan 0 chosen beefUsed

/-- `item.toLowerCase()`, as a per-character map so that the kernel can
evaluate it on concrete inputs. -/
def toLowerStr (s : String) : String := ⟨s.data.map Char.toLower⟩

/-- Lexicographic comparison of character lists, used to model
`localeCompare`. -/
def charListLe : List Char → List Char → Bool
  | [], _ => true
  | _ :: _, [] => false
  | a :: as, b :: bs => if a = b then charListLe as bs else decide (a < b)

/-- Modelled from the spec: `a.localeCompare(b) <= 0`.  The spec (§4.3) asks
for ascending, case-insensitive lexical order; the precise locale collation is
environment data, approximated by case-insensitive lexicographic comparison.
No claim depends on the collation details. -/
def localeLe (a b : String) : Bool :=
  charListLe (toLowerStr a).data (toLowerStr b).data

/-- Stable insertion of `x` after every already-placed element `y` with
`le y x`. -/
def insertSorted (le : ShoppingLineItem → ShoppingLineItem → Bool)
    (x : ShoppingLineItem) : List ShoppingLineItem → List ShoppingLineItem
  | [] => [x]
  | y :: ys => if le y x then y :: insertSorted le x ys else x :: y :: ys

/-- `Array.prototype.sort` with a comparator: a stable ascending sort. -/
def sortLineItems (le : ShoppingLineItem → ShoppingLineItem → Bool)
    (l : List ShoppingLineItem) : List ShoppingLineItem :=
  l.foldl (fun acc x => insertSorted le x acc) []

/-- `Math.round(q * 100) / 100`: JS `Math.round` rounds to the nearest
integer, halves toward positive infinity. -/
def round2 (q : ℚ) : ℚ := ((⌊q * 100 + 1 / 2⌋ : ℤ) : ℚ) / 100

/-- JS truthiness of an optional number: `undefined` and `0` are falsy. -/
def truthy (q : Option ℚ) : Bool :=
  match q with
  | none => false
  | some x => x != 0

/-- `map.set(key, v)` for a key already present: updates in place, keeping
insertion order. -/
def mapSet (m : List (String × ShoppingLineItem)) (key : String)
    (v : ShoppingLineItem) : List (String × ShoppingLineItem) :=
  m.map (fun p => if p.1 == key then (key, v) else p)

/-- One iteration of the ingredient loop of `aggregateShopping`:
look the lowercased item up in the insertion-ordered map and merge
(`existing && incoming` quantities are JS-truthy checks, `??` is `Option.or`). -/
def aggStep (m : List (String × ShoppingLineItem)) (ing : Ingredient) :
    List (String × ShoppingLineItem) :=
  match m.find? (fun p => p.1 == toLowerStr ing.item) with
  | some p =>
    if truthy p.2.quantity && truthy ing.quantity then
      mapSet m (toLowerStr ing.item) ⟨p.2.item,
        some (round2 (p.2.quantity.getD 0 + ing.quantity.getD 0)),
        p.2.unit⟩
    else
      mapSet m (toLowerStr ing.item) ⟨p.2.item, p.2.quantity.or ing.quantity,
        p.2.unit.or ing.unit⟩
  | none => m ++ [(toLowerStr ing.item, ⟨ing.item, ing.quantity, ing.unit⟩)]

/-- The nested `meals.forEach(recipe => recipe.ingredients.forEach(...))`
map-building loop of `aggregateShopping`. -/
def aggregateMap (meals : List Recipe) : List (String × ShoppingLineItem) :=
  meals.foldl (fun m r => r.ingredients.foldl aggStep m) []

/-- `aggregateShopping` from `planner.ts`. -/
def aggregateShopping (meals : List Recipe) : List ShoppingLineItem :=
  sortLineItems (fun a b => localeLe a.item b.item)
    ((aggregateMap meals).map (fun p => p.2))

/-- `buildDateLabels`: the date-fns formatting of consecutive days is the
opaque `dateFmt`. -/
def buildDateLabels (dateFmt : Nat → String) (totalDays : Nat) : List String :=
  (List.range totalDays).map dateFmt

/-- Assignment `updatedHistory[recipe.id] = timestamp` on a JS record:
overwrite in place if the key exists, else append. -/
def historySet (h : HistoryRecord) (k : String) (v : Int) : HistoryRecord :=
  if h.any (fun p => p.1 == k) then h.map (fun p => if p.1 == k then (k, v) else p)
  else h ++ [(k, v)]

/-- The `addMeals` closure of `generateWeeklyPlan`:
`dateLabels[index] ?? dateLabels[dateLabels.length - 1]`. -/
def addMeals (mt : MealType) (sels : List Recipe) (labels : List String) :
    List PlannedMeal :=
  sels.enum.map (fun p => ⟨p.1, mt, p.2, labels.getD p.1 (labels.getLastD "")⟩)

/-- `generateWeeklyPlan` from `planner.ts`.  `shufB`, `shufL`, `shufD` are the
three `shuffle(recipes.filter(...))` results consumed by the `pickRecipes`
calls, `ensureShuffles` the stream of `shuffle(recipes)` results consumed by
`ensureSpanishOrMexican`, `now` the `Date.now()` value. -/
def generateWeeklyPlan (req : PlannerRequest) (recentHistory : HistoryRecord)
    (shufB shufL shufD : List Recipe) (ensureShuffles : Nat → List Recipe)
    (dateFmt : Nat → String) (now : Int) : Except String PlannerResponse := do
  let recentSet := recentHistory.map (fun p => p.1)
  let bres ← pickRecipes .breakfast req.breakfasts shufB [] false
  let lres ← pickRecipes .lunch req.lunches shufL bres.2.1 bres.2.2
  let dres ← pickRecipes .dinner req.dinners shufD lres.2.1 lres.2.2
  let allRecipes := bres.1 ++ lres.1 ++ dres.1
  let ensured ← ensureSpanishOrMexican allRecipes recentSet dres.2.1 dres.2.2
    ensureShuffles
  let totalDays := max (max (max req.breakfasts req.lunches) req.dinners) 5
  let dateLabels := buildDateLabels dateFmt totalDays
  let meals :=
    addMeals .breakfast (ensured.1.filter (fun r => r.mealType == .breakfast))
        dateLabels ++
      addMeals .lunch (ensured.1.filter (fun r => r.mealType == .lunch))
        dateLabels ++
      addMeals .dinner (ensured.1.filter (fun r => r.mealType == .dinner))
        dateLabels
  let shoppingList := aggregateShopping ensured.1
  let updatedHistory := ensured.1.foldl (fun h r => historySet h r.id now)
    recentHistory
  pure ⟨meals, shoppingList, updatedHistory⟩

/-! ### Generic list helpers -/

theorem countP_map_le_countP {α β : Type} (f : α → β) (p : β → Bool) (q : α → Bool)
    (l : List α) (h : ∀ u ∈ l, p (f u) = true → q u = true) :
    (l.map f).countP p ≤ l.countP q := by
  rw [List.countP_map]
  exact List.countP_mono_left h

theorem nodup_map_replace (t c : String) :
    ∀ ids : List String, ids.Nodup → c ∉ ids →
      (ids.map (fun x => if x == t then c else x)).Nodup := by
  intro ids
  induction ids with
  | nil => intro _ _; simp
  | cons x xs ih =>
    intro hn hc
    rw [List.nodup_cons] at hn
    rw [List.mem_cons, not_or] at hc
    rw [List.map_cons, List.nodup_cons]
    refine ⟨?_, ih hn.2 hc.2⟩
    intro hmem
    rcases List.mem_map.mp hmem with ⟨y, hy, hyeq⟩
    by_cases hyt : y = t
    · rw [if_pos (by simpa using hyt)] at hyeq
      by_cases hxt : x = t
      · rw [if_pos (by simpa using hxt)] at hyeq
        have hxy : x = y := hxt.trans hyt.symm
        exact hn.1 (hxy ▸ hy)
      · rw [if_neg (by simpa using hxt)] at hyeq
        exact hc.1 hyeq
    · rw [if_neg (by simpa using hyt)] at hyeq
      by_cases hxt : x = t
      · rw [if_pos (by simpa using hxt)] at hyeq
        exact hc.2 (hyeq ▸ hy)
      · rw [if_neg (by simpa using hxt)] at hyeq
        exact hn.1 (hyeq ▸ hy)

/-! ### Slot Selector (`pickRecipes`) invariants -/

theorem setAdd_of_not_mem {s : List String} {x : String} (h : x ∉ s) :
    setAdd s x = s ++ [x] := by
  simp [setAdd, h]

theorem pickScan_cons_full {count : Nat} {r : Recipe} {rest sels : List Recipe}
    {chosen : List String} {b : Bool} (h1 : sels.length ≥ count) :
    pickScan count (r :: rest) sels chosen b =
      pickScan count rest sels chosen b := by
  simp only [pickScan]
  rw [if_pos h1]

theorem pickScan_cons_chosen {count : Nat} {r : Recipe} {rest sels : List Recipe}
    {chosen : List String} {b : Bool} (h1 : ¬ sels.length ≥ count)
    (h2 : chosen.contains r.id = true) :
    pickScan count (r :: rest) sels chosen b =
      pickScan count rest sels chosen b := by
  simp only [pickScan]
  rw [if_neg h1, if_pos h2]

theorem pickScan_cons_beef {count : Nat} {r : Recipe} {rest sels : List Recipe}
    {chosen : List String} {b : Bool} (h1 : ¬ sels.length ≥ count)
    (h2 : ¬ chosen.contains r.id = true) (h3 : (isBeef r && b) = true) :
    pickScan count (r :: rest) sels chosen b =
      pickScan count rest sels chosen b := by
  simp only [pickScan]
  rw [if_neg h1, if_neg h2, if_pos h3]

theorem pickScan_cons_accept {count : Nat} {r : Recipe} {rest sels : List Recipe}
    {chosen : List String} {b : Bool} (h1 : ¬ sels.length ≥ count)
    (h2 : ¬ chosen.contains r.id = true) (h3 : ¬ (isBeef r && b) = true) :
    pickScan count (r :: rest) sels chosen b =
      pickScan count rest (sels ++ [r]) (chosen ++ [r.id]) (b || isBeef r) := by
  have hrid : r.id ∉ chosen := fun hmem => h2 (List.elem_eq_true_of_mem hmem)
  simp only [pickScan]
  rw [if_neg h1, if_neg h2, if_neg h3, setAdd_of_not_mem hrid]

/-- Everything the `candidates.forEach` loop guarantees at once: the final
selections extend the initial ones by a block `new` of candidates whose ids
were free, the chosen set is extended by exactly the ids of `new`, and those
ids are pairwise distinct. -/
theorem pickScan_spec (count : Nat) :
    ∀ (cands sels : List Recipe) (chosen : List String) (b : Bool),
      ∃ new : List Recipe,
        (pickScan count cands sels chosen b).1 = sels ++ new ∧
        (pickScan count cands sels chosen b).2.1 = chosen ++ new.map Recipe.id ∧
        (∀ r ∈ new, r ∈ cands ∧ r.id ∉ chosen) ∧
        (new.map Recipe.id).Nodup := by
  intro cands
  induction cands with
  | nil =>
    intro sels chosen b
    exact ⟨[], by simp [pickScan], by simp [pickScan], by simp, by simp⟩
  | cons r rest ih =>
    intro sels chosen b
    by_cases h1 : sels.length ≥ count
    · rcases ih sels chosen b with ⟨new, e1, e2, e3, e4⟩
      rw [pickScan_cons_full h1]
      exact ⟨new, e1, e2,
        fun x hx => ⟨List.mem_cons_of_mem r (e3 x hx).1, (e3 x hx).2⟩, e4⟩
    · by_cases h2 : chosen.contains r.id = true
      · rcases ih sels chosen b with ⟨new, e1, e2, e3, e4⟩
        rw [pickScan_cons_chosen h1 h2]
        exact ⟨new, e1, e2,
          fun x hx => ⟨List.mem_cons_of_mem r (e3 x hx).1, (e3 x hx).2⟩, e4⟩
      · by_cases h3 : (isBeef r && b) = true
        · rcases ih sels chosen b with ⟨new, e1, e2, e3, e4⟩
          rw [pickScan_cons_beef h1 h2 h3]
          exact ⟨new, e1, e2,
            fun x hx => ⟨List.mem_cons_of_mem r (e3 x hx).1, (e3 x hx).2⟩, e4⟩
        · have hrid : r.id ∉ chosen := fun hmem => h2 (List.elem_eq_true_of_mem hmem)
          rcases ih (sels ++ [r]) (chosen ++ [r.id]) (b || isBeef r) with
            ⟨new, e1, e2, e3, e4⟩
          rw [pickScan_cons_accept h1 h2 h3]
          refine ⟨r :: new, ?_, ?_, ?_, ?_⟩
          · rw [e1]; simp
          · rw [e2]; simp
          · intro x hx
            rcases List.mem_cons.mp hx with hx | hx
            · exact ⟨hx ▸ List.mem_cons_self r rest, hx ▸ hrid⟩
            · have := e3 x hx
              refine ⟨List.mem_cons_of_mem r this.1, fun hmem => this.2 ?_⟩
              exact List.mem_append_left _ hmem
          · simp only [List.map_cons, List.nodup_cons]
            refine ⟨?_, e4⟩
            intro hmem
            rcases List.mem_map.mp hmem with ⟨y, hy, hyeq⟩
            exact (e3 y hy).2 (hyeq ▸ List.mem_append_right _ (by simp))

/-- The loop never selects past `count`. -/
theorem pickScan_length_le (count : Nat) :
    ∀ (cands sels : List Recipe) (chosen : List String) (b : Bool),
      sels.length ≤ count →
      (pickScan count cands sels chosen b).1.length ≤ count := by
  intro cands
  induction cands with
  | nil => intro sels chosen b h; simpa [pickScan] using h
  | cons r rest ih =>
    intro sels chosen b h
    by_cases h1 : sels.length ≥ count
    · rw [pickScan_cons_full h1]; exact ih sels chosen b h
    · by_cases h2 : chosen.contains r.id = true
      · rw [pickScan_cons_chosen h1 h2]; exact ih sels chosen b h
      · by_cases h3 : (isBeef r && b) = true
        · rw [pickScan_cons_beef h1 h2 h3]; exact ih sels chosen b h
        · rw [pickScan_cons_accept h1 h2 h3]
          have : (sels ++ [r]).length ≤ count := by
            simp only [List.length_append, List.length_singleton]
            omega
          exact ih (sels ++ [r]) (chosen ++ [r.id]) (b || isBeef r) this

/-- Beef accounting: the number of newly selected beef recipes is bounded by
the movement of the `beefUsed` flag. -/
theorem pickScan_beef (count : Nat) :
    ∀ (cands sels : List Recipe) (chosen : List String) (b : Bool),
      (pickScan count cands sels chosen b).1.countP isBeef + b.toNat ≤
        sels.countP isBeef + ((pickScan count cands sels chosen b).2.2).toNat := by
  intro cands
  induction cands with
  | nil => intro sels chosen b; simp [pickScan]
  | cons r rest ih =>
    intro sels chosen b
    by_cases h1 : sels.length ≥ count
    · rw [pickScan_cons_full h1]; exact ih sels chosen b
    · by_cases h2 : chosen.contains r.id = true
      · rw [pickScan_cons_chosen h1 h2]; exact ih sels chosen b
      · by_cases h3 : (isBeef r && b) = true
        · rw [pickScan_cons_beef h1 h2 h3]; exact ih sels chosen b
        · rw [pickScan_cons_accept h1 h2 h3]
          have key := ih (sels ++ [r]) (chosen ++ [r.id]) (b || isBeef r)
          by_cases hb : isBeef r = true
          · have hbf : b = false := by
              cases b
              · rfl
              · simp [hb] at h3
            subst hbf
            simp only [List.countP_append, List.countP_cons, hb, Bool.or_true,
              if_pos, Bool.toNat_true, Bool.toNat_false] at key ⊢
            simp only [List.countP_nil, Nat.zero_add] at key
            omega
          · simp only [Bool.not_eq_true] at hb
            simp only [List.countP_append, List.countP_cons, hb, Bool.or_false,
              Bool.toNat_true, Bool.toNat_false] at key ⊢
            simp only [List.countP_nil, Nat.zero_add, if_neg] at key ⊢
            simp at key ⊢
            omega

/-- Success characterization of `pickRecipes`: exactly `count` recipes, drawn
from `shuffled`, extending the chosen set by their (pairwise distinct) ids,
with the beef movement bound. -/
theorem pickRecipes_ok {mt : MealType} {count : Nat} {shuffled : List Recipe}
    {chosen : List String} {b : Bool} {sels : List Recipe} {chosen' : List String}
    {b' : Bool}
    (h : pickRecipes mt count shuffled chosen b = .ok (sels, chosen', b')) :
    sels.length = count ∧
    chosen' = chosen ++ sels.map Recipe.id ∧
    (∀ r ∈ sels, r ∈ shuffled ∧ r.id ∉ chosen) ∧
    (sels.map Recipe.id).Nodup ∧
    sels.countP isBeef + b.toNat ≤ b'.toNat := by
  unfold pickRecipes at h
  by_cases hlt : (pickScan count shuffled [] chosen b).1.length < count
  · rw [if_pos hlt] at h
    exact absurd h (by simp)
  · rw [if_neg hlt] at h
    have hout : pickScan count shuffled [] chosen b = (sels, chosen', b') := by
      simpa using h
    have q1 : (pickScan count shuffled [] chosen b).1 = sels := by rw [hout]
    have q2 : (pickScan count shuffled [] chosen b).2.1 = chosen' := by rw [hout]
    have q3 : (pickScan count shuffled [] chosen b).2.2 = b' := by rw [hout]
    have hlen := pickScan_length_le count shuffled [] chosen b (Nat.zero_le count)
    rcases pickScan_spec count shuffled [] chosen b with ⟨new, e1, e2, e3, e4⟩
    have hbeef := pickScan_beef count shuffled [] chosen b
    rw [q1] at hlen e1 hbeef hlt
    rw [q2] at e2
    rw [q3] at hbeef
    simp only [List.nil_append] at e1
    subst e1
    refine ⟨by omega, by simpa using e2, e3, e4, by simpa using hbeef⟩

/-- Failure characterization of `pickRecipes`: the error message is fixed and
names the meal type. -/
theorem pickRecipes_error {mt : MealType} {count : Nat} {shuffled : List Recipe}
    {chosen : List String} {b : Bool} {e : String}
    (h : pickRecipes mt count shuffled chosen b = .error e) :
    e = insufficientMsg mt ∧
    (pickScan count shuffled [] chosen b).1.length < count := by
  unfold pickRecipes at h
  by_cases hlt : (pickScan count shuffled [] chosen b).1.length < count
  · rw [if_pos hlt] at h
    injection h with h2
    exact ⟨h2.symm, hlt⟩
  · rw [if_neg hlt] at h
    exact absurd h (by simp)

/-! ### Variety Repairer (`ensureSpanishOrMexican`) invariants -/

/-- Success characterization of the substitution loop: the remaining entries
split as `pre ++ t :: post` where no entry of `pre` admits any valid
replacement in the catalog, `t` is replaced by the found candidate, and the
result, chosen set and beef flag are exactly the source's updates. -/
theorem ensureLoop_ok {fullPlan : List Recipe} {recent : List String}
    {shuffles : Nat → List Recipe} {catalog : List Recipe}
    (hshuf : ∀ j, List.Perm (shuffles j) catalog) :
    ∀ (rest : List Recipe) (i : Nat) (chosen : List String) (b : Bool)
      {plan' : List Recipe} {chosen' : List String} {b' : Bool},
      ensureLoop fullPlan recent shuffles rest i chosen b =
        .ok (plan', chosen', b') →
      ∃ pre t post cand,
        rest = pre ++ t :: post ∧
        (∀ u ∈ pre, ∀ c ∈ catalog, replacementOk recent chosen b u c = false) ∧
        replacementOk recent chosen b t cand = true ∧
        cand ∈ catalog ∧
        plan' = fullPlan.map (fun r => if r.id == t.id then cand else r) ∧
        chosen' = setAdd (chosen.filter (fun x => !(x == t.id))) cand.id ∧
        b' = (b || isBeef cand) := by
  intro rest
  induction rest with
  | nil =>
    intro i chosen b plan' chosen' b' h
    exact absurd h (by simp [ensureLoop])
  | cons t rest ih =>
    intro i chosen b plan' chosen' b' h
    unfold ensureLoop at h
    cases hfind : (shuffles i).find? (replacementOk recent chosen b t) with
    | some cand =>
      rw [hfind] at h
      have hok : plan' = fullPlan.map (fun r => if r.id == t.id then cand else r) ∧
          chosen' = setAdd (chosen.filter (fun x => !(x == t.id))) cand.id ∧
          b' = (b || isBeef cand) := by
        have := h
        simp only [Except.ok.injEq, Prod.mk.injEq] at this
        exact ⟨this.1.symm, this.2.1.symm, this.2.2.symm⟩
      exact ⟨[], t, rest, cand, by simp, by simp,
        List.find?_some hfind,
        (hshuf i).mem_iff.mp (List.mem_of_find?_eq_some hfind),
        hok.1, hok.2.1, hok.2.2⟩
    | none =>
      rw [hfind] at h
      rcases ih (i + 1) chosen b h with
        ⟨pre, t', post, cand, e1, e2, e3, e4, e5, e6, e7⟩
      refine ⟨t :: pre, t', post, cand, by rw [e1]; rfl, ?_, e3, e4, e5, e6, e7⟩
      intro u hu c hc
      rcases List.mem_cons.mp hu with hu | hu
      · subst hu
        have := List.find?_eq_none.mp hfind c ((hshuf i).mem_iff.mpr hc)
        simpa using this
      · exact e2 u hu c hc

/-- An already-satisfied selection is returned unchanged. -/
theorem ensure_noop {plan : List Recipe} {recent chosen : List String} {b : Bool}
    {shuffles : Nat → List Recipe} (h : plan.any requiredCuisine = true) :
    ensureSpanishOrMexican plan recent chosen b shuffles = .ok (plan, chosen, b) := by
  simp [ensureSpanishOrMexican, h]

/-- Case split for a successful repair. -/
theorem ensure_ok_inv {plan : List Recipe} {recent chosen : List String} {b : Bool}
    {shuffles : Nat → List Recipe}
    {out : List Recipe × List String × Bool}
    (h : ensureSpanishOrMexican plan recent chosen b shuffles = .ok out) :
    (plan.any requiredCuisine = true ∧ out = (plan, chosen, b)) ∨
    (plan.any requiredCuisine = false ∧
      ensureLoop plan recent shuffles plan 0 chosen b = .ok out) := by
  unfold ensureSpanishOrMexican at h
  by_cases hany : plan.any requiredCuisine = true
  · rw [if_pos hany] at h
    injection h with h2
    exact Or.inl ⟨hany, h2.symm⟩
  · rw [if_neg hany] at h
    exact Or.inr ⟨by simpa using hany, h⟩

/-! ### Plan Assembler helpers -/

theorem addMeals_map_recipe (mt : MealType) (sels : List Recipe)
    (labels : List String) :
    (addMeals mt sels labels).map PlannedMeal.recipe = sels := by
  unfold addMeals
  rw [List.map_map]
  exact List.enum_map_snd sels

theorem addMeals_length (mt : MealType) (sels : List Recipe)
    (labels : List String) :
    (addMeals mt sels labels).length = sels.length := by
  unfold addMeals
  rw [List.length_map, List.enum_length]

/-- Filtering a three-block concatenation with uniform meal types returns the
matching block. -/
theorem filter_blocks (B L D : List Recipe)
    (hB : ∀ r ∈ B, r.mealType = .breakfast)
    (hL : ∀ r ∈ L, r.mealType = .lunch)
    (hD : ∀ r ∈ D, r.mealType = .dinner) :
    (B ++ L ++ D).filter (fun r => r.mealType == MealType.breakfast) = B ∧
    (B ++ L ++ D).filter (fun r => r.mealType == MealType.lunch) = L ∧
    (B ++ L ++ D).filter (fun r => r.mealType == MealType.dinner) = D := by
  refine ⟨?_, ?_, ?_⟩
  · rw [List.filter_append, List.filter_append]
    rw [List.filter_eq_self.mpr (fun a ha => by simp [hB a ha])]
    rw [List.filter_eq_nil_iff.mpr (fun a ha => by simp [hL a ha])]
    rw [List.filter_eq_nil_iff.mpr (fun a ha => by simp [hD a ha])]
    simp
  · rw [List.filter_append, List.filter_append]
    rw [List.filter_eq_nil_iff.mpr (fun a ha => by simp [hB a ha])]
    rw [List.filter_eq_self.mpr (fun a ha => by simp [hL a ha])]
    rw [List.filter_eq_nil_iff.mpr (fun a ha => by simp [hD a ha])]
    simp
  · rw [List.filter_append, List.filter_append]
    rw [List.filter_eq_nil_iff.mpr (fun a ha => by simp [hB a ha])]
    rw [List.filter_eq_nil_iff.mpr (fun a ha => by simp [hL a ha])]
    rw [List.filter_eq_self.mpr (fun a ha => by simp [hD a ha])]
    simp

/-- When the used ids are fresh and pairwise distinct, the history update is a
plain append of `(id, now)` pairs. -/
theorem history_fold_append (now : Int) :
    ∀ (plan : List Recipe) (hist : HistoryRecord),
      (∀ r ∈ plan, r.id ∉ hist.map Prod.fst) →
      (plan.map Recipe.id).Nodup →
      plan.foldl (fun h r => historySet h r.id now) hist =
        hist ++ plan.map (fun r => (r.id, now)) := by
  intro plan
  induction plan with
  | nil => intro hist _ _; simp
  | cons r rest ih =>
    intro hist hfresh hnodup
    have hr : r.id ∉ hist.map Prod.fst := hfresh r (List.mem_cons_self r rest)
    have hset : historySet hist r.id now = hist ++ [(r.id, now)] := by
      unfold historySet
      rw [if_neg]
      intro hany
      rcases List.any_eq_true.mp hany with ⟨p, hp, hpk⟩
      exact hr (List.mem_map.mpr ⟨p, hp, by simpa using hpk⟩)
    have hnomem : r.id ∉ rest.map Recipe.id := by
      have := hnodup
      rw [List.map_cons, List.nodup_cons] at this
      exact this.1
    have hfresh' : ∀ u ∈ rest, u.id ∉ (hist ++ [(r.id, now)]).map Prod.fst := by
      intro u hu
      rw [List.map_append]
      intro hmem
      rcases List.mem_append.mp hmem with hmem | hmem
      · exact hfresh u (List.mem_cons_of_mem r hu) hmem
      · simp only [List.map_cons, List.map_nil, List.mem_singleton] at hmem
        exact hnomem (hmem ▸ List.mem_map_of_mem Recipe.id hu)
    have hnodup' : (rest.map Recipe.id).Nodup := by
      have := hnodup
      rw [List.map_cons, List.nodup_cons] at this
      exact this.2
    calc (r :: rest).foldl (fun h x => historySet h x.id now) hist
        = rest.foldl (fun h x => historySet h x.id now) (hist ++ [(r.id, now)]) := by
          rw [List.foldl_cons, hset]
      _ = (hist ++ [(r.id, now)]) ++ rest.map (fun x => (x.id, now)) :=
          ih (hist ++ [(r.id, now)]) hfresh' hnodup'
      _ = hist ++ (r :: rest).map (fun x => (x.id, now)) := by
          rw [List.map_cons, List.append_assoc]
          rfl

/-! ### `generateWeeklyPlan` inversion -/

/-- The day-label list actually used by `generateWeeklyPlan`. -/
def planLabels (req : PlannerRequest) (dateFmt : Nat → String) : List String :=
  buildDateLabels dateFmt (max (max (max req.breakfasts req.lunches) req.dinners) 5)

/-- Unfolding of a successful `generateWeeklyPlan` into its four stages. -/
theorem generate_ok_inv {req : PlannerRequest} {hist : HistoryRecord}
    {shufB shufL shufD : List Recipe} {eShufs : Nat → List Recipe}
    {dateFmt : Nat → String} {now : Int} {resp : PlannerResponse}
    (h : generateWeeklyPlan req hist shufB shufL shufD eShufs dateFmt now =
      .ok resp) :
    ∃ bout lout dout ens,
      pickRecipes .breakfast req.breakfasts shufB [] false = .ok bout ∧
      pickRecipes .lunch req.lunches shufL bout.2.1 bout.2.2 = .ok lout ∧
      pickRecipes .dinner req.dinners shufD lout.2.1 lout.2.2 = .ok dout ∧
      ensureSpanishOrMexican (bout.1 ++ lout.1 ++ dout.1)
        (hist.map (fun p => p.1)) dout.2.1 dout.2.2 eShufs = .ok ens ∧
      resp.meals =
        addMeals .breakfast
            (ens.1.filter (fun r => r.mealType == MealType.breakfast))
            (planLabels req dateFmt) ++
          addMeals .lunch (ens.1.filter (fun r => r.mealType == MealType.lunch))
            (planLabels req dateFmt) ++
          addMeals .dinner (ens.1.filter (fun r => r.mealType == MealType.dinner))
            (planLabels req dateFmt) ∧
      resp.shoppingList = aggregateShopping ens.1 ∧
      resp.updatedHistory =
        ens.1.foldl (fun h r => historySet h r.id now) hist := by
  unfold generateWeeklyPlan at h
  cases hB : pickRecipes .breakfast req.breakfasts shufB [] false with
  | error e =>
    rw [hB] at h
    simp only [Bind.bind, Except.bind] at h
    exact absurd h (by simp)
  | ok bout =>
    rw [hB] at h
    simp only [Bind.bind, Except.bind] at h
    cases hL : pickRecipes .lunch req.lunches shufL bout.2.1 bout.2.2 with
    | error e =>
      rw [hL] at h
      simp only [Except.bind] at h
      exact absurd h (by simp)
    | ok lout =>
      rw [hL] at h
      simp only [Except.bind] at h
      cases hD : pickRecipes .dinner req.dinners shufD lout.2.1 lout.2.2 with
      | error e =>
        rw [hD] at h
        simp only [Except.bind] at h
        exact absurd h (by simp)
      | ok dout =>
        rw [hD] at h
        simp only [Except.bind] at h
        cases hE : ensureSpanishOrMexican (bout.1 ++ lout.1 ++ dout.1)
            (hist.map (fun p => p.1)) dout.2.1 dout.2.2 eShufs with
        | error e =>
          rw [hE] at h
          simp only [Except.bind] at h
          exact absurd h (by simp)
        | ok ens =>
          rw [hE] at h
          simp only [Except.bind, pure, Except.pure, Except.ok.injEq] at h
          exact ⟨bout, lout, dout, ens, rfl, hL, hD, hE,
            by rw [← h]; rfl, by rw [← h], by rw [← h]⟩

/-- Membership in the filtered candidate list unpacks to the three filter
conditions. -/
theorem mem_candidatesFor {catalog : List Recipe} {mt : MealType}
    {recent : List String} {r : Recipe} (h : r ∈ candidatesFor catalog mt recent) :
    r ∈ catalog ∧ r.mealType = mt ∧ r.id ∉ recent := by
  unfold candidatesFor at h
  rcases List.mem_filter.mp h with ⟨hmem, hp⟩
  simp only [Bool.and_eq_true, beq_iff_eq, Bool.not_eq_true'] at hp
  refine ⟨hmem, hp.1, fun hin => ?_⟩
  have hc : recent.contains r.id = true := List.elem_eq_true_of_mem hin
  rw [hc] at hp
  exact absurd hp.2 (by simp)

/-- Facts about the combined selection produced by the three successful
`pickRecipes` calls of `generateWeeklyPlan`. -/
theorem picks_facts {catalog : List Recipe} {recent : List String}
    {nb nl nd : Nat} {shufB shufL shufD : List Recipe}
    {bout lout dout : List Recipe × List String × Bool}
    (hpB : List.Perm shufB (candidatesFor catalog .breakfast recent))
    (hpL : List.Perm shufL (candidatesFor catalog .lunch recent))
    (hpD : List.Perm shufD (candidatesFor catalog .dinner recent))
    (hB : pickRecipes .breakfast nb shufB [] false = .ok bout)
    (hL : pickRecipes .lunch nl shufL bout.2.1 bout.2.2 = .ok lout)
    (hD : pickRecipes .dinner nd shufD lout.2.1 lout.2.2 = .ok dout) :
    (bout.1 ++ lout.1 ++ dout.1).length = nb + nl + nd ∧
    dout.2.1 = (bout.1 ++ lout.1 ++ dout.1).map Recipe.id ∧
    ((bout.1 ++ lout.1 ++ dout.1).map Recipe.id).Nodup ∧
    (∀ r ∈ bout.1 ++ lout.1 ++ dout.1, r ∈ catalog ∧ r.id ∉ recent) ∧
    (∀ r ∈ bout.1, r.mealType = .breakfast) ∧
    (∀ r ∈ lout.1, r.mealType = .lunch) ∧
    (∀ r ∈ dout.1, r.mealType = .dinner) ∧
    (bout.1 ++ lout.1 ++ dout.1).countP isBeef ≤ dout.2.2.toNat := by
  obtain ⟨bsel, cB, b1⟩ := bout
  obtain ⟨lsel, cL, b2⟩ := lout
  obtain ⟨dsel, cD, b3⟩ := dout
  dsimp only at hB hL hD ⊢
  obtain ⟨lenB, chB, memB, ndB, beefB⟩ := pickRecipes_ok hB
  obtain ⟨lenL, chL, memL, ndL, beefL⟩ := pickRecipes_ok hL
  obtain ⟨lenD, chD, memD, ndD, beefD⟩ := pickRecipes_ok hD
  simp only [List.nil_append] at chB
  have candB : ∀ r ∈ bsel, r ∈ catalog ∧ r.mealType = .breakfast ∧ r.id ∉ recent :=
    fun r hr => mem_candidatesFor (hpB.mem_iff.mp (memB r hr).1)
  have candL : ∀ r ∈ lsel, r ∈ catalog ∧ r.mealType = .lunch ∧ r.id ∉ recent :=
    fun r hr => mem_candidatesFor (hpL.mem_iff.mp (memL r hr).1)
  have candD : ∀ r ∈ dsel, r ∈ catalog ∧ r.mealType = .dinner ∧ r.id ∉ recent :=
    fun r hr => mem_candidatesFor (hpD.mem_iff.mp (memD r hr).1)
  have hch : cD = (bsel ++ lsel ++ dsel).map Recipe.id := by
    rw [chD, chL, chB]
    simp [List.map_append, List.append_assoc]
  have hdisjLB : ∀ a ∈ lsel.map Recipe.id, a ∉ bsel.map Recipe.id := by
    intro a ha
    rcases List.mem_map.mp ha with ⟨r, hr, hra⟩
    have := (memL r hr).2
    rw [chB] at this
    exact fun hb => this (hra ▸ hb)
  have hdisjD : ∀ a ∈ dsel.map Recipe.id,
      a ∉ bsel.map Recipe.id ++ lsel.map Recipe.id := by
    intro a ha
    rcases List.mem_map.mp ha with ⟨r, hr, hra⟩
    have := (memD r hr).2
    rw [chL, chB] at this
    exact fun hb => this (hra ▸ hb)
  have hnodup : ((bsel ++ lsel ++ dsel).map Recipe.id).Nodup := by
    rw [List.map_append, List.map_append]
    rw [List.nodup_append]
    refine ⟨?_, ndD, ?_⟩
    · rw [List.nodup_append]
      exact ⟨ndB, ndL, fun a ha hb => hdisjLB a hb ha⟩
    · intro a ha hb
      exact hdisjD a hb ha
  refine ⟨?_, hch, hnodup, ?_, fun r hr => (candB r hr).2.1,
    fun r hr => (candL r hr).2.1, fun r hr => (candD r hr).2.1, ?_⟩
  · simp only [List.length_append, lenB, lenL, lenD]
  · intro r hr
    rcases List.mem_append.mp hr with hr | hr
    · rcases List.mem_append.mp hr with hr | hr
      · exact ⟨(candB r hr).1, (candB r hr).2.2⟩
      · exact ⟨(candL r hr).1, (candL r hr).2.2⟩
    · exact ⟨(candD r hr).1, (candD r hr).2.2⟩
  · simp only [List.countP_append]
    simp only [Bool.toNat_false] at beefB
    omega

/-- Unpacking of the replacement predicate of the Variety Repairer. -/
theorem replacementOk_unpack {recent chosen : List String} {b : Bool} {t c : Recipe}
    (h : replacementOk recent chosen b t c = true) :
    c.mealType = t.mealType ∧ requiredCuisine c = true ∧ c.id ∉ recent ∧
    c.id ∉ chosen ∧ (isBeef c = true → b = false) := by
  unfold replacementOk at h
  simp only [Bool.and_eq_true, Bool.not_eq_true', Bool.or_eq_false_iff,
    Bool.and_eq_false_iff, beq_iff_eq] at h
  obtain ⟨⟨⟨hmt, hcui⟩, hrec, hch⟩, hbeef⟩ := h
  refine ⟨hmt, hcui, ?_, ?_, ?_⟩
  · intro hin
    have hc : recent.contains c.id = true := List.elem_eq_true_of_mem hin
    rw [hc] at hrec
    exact absurd hrec (by simp)
  · intro hin
    have hc : chosen.contains c.id = true := List.elem_eq_true_of_mem hin
    rw [hc] at hch
    exact absurd hch (by simp)
  · intro hbc
    rcases hbeef with hbeef | hbeef
    · exact absurd hbc (by simp [hbeef])
    · exact hbeef

/-- Facts about the repaired plan returned by a successful
`ensureSpanishOrMexican` call, given the selection invariants established by
the Slot Selector: the repaired plan is a pointwise, meal-type-preserving
update of the selection, keeps ids distinct and non-recent, keeps the beef
cap, and contains a required-cuisine recipe. -/
theorem ensure_facts {catalog : List Recipe} {recent : List String}
    {all : List Recipe} {b3 : Bool} {eShufs : Nat → List Recipe}
    {plan' : List Recipe} {chosen' : List String} {b' : Bool}
    (hpE : ∀ j, List.Perm (eShufs j) catalog)
    (hnodup : (all.map Recipe.id).Nodup)
    (hmem : ∀ r ∈ all, r ∈ catalog ∧ r.id ∉ recent)
    (hbeef : all.countP isBeef ≤ b3.toNat)
    (hE : ensureSpanishOrMexican all recent (all.map Recipe.id) b3 eShufs =
      .ok (plan', chosen', b')) :
    ∃ g : Recipe → Recipe,
      plan' = all.map g ∧
      (∀ u ∈ all, (g u).mealType = u.mealType) ∧
      (plan'.map Recipe.id).Nodup ∧
      (∀ r ∈ plan', r.id ∉ recent) ∧
      plan'.countP isBeef ≤ 1 ∧
      (∃ r ∈ plan', requiredCuisine r = true) := by
  have hb3le : b3.toNat ≤ 1 := by cases b3 <;> simp
  rcases ensure_ok_inv hE with ⟨hany, hout⟩ | ⟨hany, hloop⟩
  · simp only [Prod.mk.injEq] at hout
    obtain ⟨h1, _, _⟩ := hout
    subst h1
    refine ⟨id, by simp, fun u _ => rfl, hnodup, fun r hr => (hmem r hr).2, ?_, ?_⟩
    · omega
    · rcases List.any_eq_true.mp hany with ⟨r, hr, hc⟩
      exact ⟨r, hr, hc⟩
  · rcases ensureLoop_ok hpE all 0 (all.map Recipe.id) b3 hloop with
      ⟨pre, t, post, cand, e1, _, e3, _, e5, _, _⟩
    obtain ⟨cmt, ccui, crec, cch, cbeef⟩ := replacementOk_unpack e3
    have ht : t ∈ all := by
      rw [e1]
      exact List.mem_append_right _ (List.mem_cons_self _ _)
    refine ⟨fun r => if r.id == t.id then cand else r, e5, ?_, ?_, ?_, ?_, ?_⟩
    · intro u hu
      show (if (u.id == t.id) = true then cand else u).mealType = u.mealType
      by_cases h : (u.id == t.id) = true
      · have hut : u = t :=
          List.inj_on_of_nodup_map hnodup hu ht (by simpa using h)
        rw [if_pos h, cmt, hut]
      · rw [if_neg h]
    · have hplan : plan'.map Recipe.id =
          (all.map Recipe.id).map (fun x => if x == t.id then cand.id else x) := by
        rw [e5, List.map_map, List.map_map]
        apply List.map_congr_left
        intro u _
        show Recipe.id (if (u.id == t.id) = true then cand else u) =
          (if (u.id == t.id) = true then cand.id else u.id)
        by_cases h : (u.id == t.id) = true
        · rw [if_pos h, if_pos h]
        · rw [if_neg h, if_neg h]
      rw [hplan]
      exact nodup_map_replace t.id cand.id (all.map Recipe.id) hnodup cch
    · intro r hr
      rw [e5] at hr
      rcases List.mem_map.mp hr with ⟨u, hu, hur⟩
      have hur2 : (if (u.id == t.id) = true then cand else u) = r := hur
      by_cases h : (u.id == t.id) = true
      · rw [if_pos h] at hur2
        exact hur2 ▸ crec
      · rw [if_neg h] at hur2
        exact hur2 ▸ (hmem u hu).2
    · by_cases hcb : isBeef cand = true
      · have hb3 : b3 = false := cbeef hcb
        have hzero : all.countP isBeef = 0 := by
          rw [hb3] at hbeef
          simpa using hbeef
        have hall0 : ∀ u ∈ all, ¬ isBeef u = true :=
          List.countP_eq_zero.mp hzero
        have hle : plan'.countP isBeef ≤ all.countP (fun u => u.id == t.id) := by
          rw [e5]
          apply countP_map_le_countP
          intro u hu hbg
          have hbg2 : isBeef (if (u.id == t.id) = true then cand else u) = true := hbg
          by_cases h : (u.id == t.id) = true
          · exact h
          · rw [if_neg h] at hbg2
            exact absurd hbg2 (hall0 u hu)
        have hcount : all.countP (fun u => u.id == t.id) ≤ 1 := by
          have : all.countP (fun u => u.id == t.id) =
              (all.map Recipe.id).countP (fun x => x == t.id) := by
            rw [List.countP_map]
            rfl
          rw [this]
          have := List.nodup_iff_count_le_one.mp hnodup t.id
          simpa [List.count] using this
        omega
      · have hle : plan'.countP isBeef ≤ all.countP isBeef := by
          rw [e5]
          apply countP_map_le_countP
          intro u hu hbg
          have hbg2 : isBeef (if (u.id == t.id) = true then cand else u) = true := hbg
          by_cases h : (u.id == t.id) = true
          · rw [if_pos h] at hbg2
            exact absurd hbg2 hcb
          · rw [if_neg h] at hbg2
            exact hbg2
        omega
    · refine ⟨cand, ?_, ccui⟩
      rw [e5]
      have := List.mem_map_of_mem (fun r => if r.id == t.id then cand else r) ht
      simpa using this

/-- The facts a successful `generateWeeklyPlan` guarantees about its meals and
history, given that the shuffle outcomes are genuine permutations of the lists
the source shuffles. -/
theorem generate_plan_facts {catalog : List Recipe} {req : PlannerRequest}
    {hist : HistoryRecord} {shufB shufL shufD : List Recipe}
    {eShufs : Nat → List Recipe} {dateFmt : Nat → String} {now : Int}
    {resp : PlannerResponse}
    (hpB : List.Perm shufB
      (candidatesFor catalog .breakfast (hist.map (fun p => p.1))))
    (hpL : List.Perm shufL
      (candidatesFor catalog .lunch (hist.map (fun p => p.1))))
    (hpD : List.Perm shufD
      (candidatesFor catalog .dinner (hist.map (fun p => p.1))))
    (hpE : ∀ j, List.Perm (eShufs j) catalog)
    (h : generateWeeklyPlan req hist shufB shufL shufD eShufs dateFmt now =
      .ok resp) :
    ∃ plan : List Recipe,
      resp.meals.map PlannedMeal.recipe = plan ∧
      resp.meals.length = req.breakfasts + req.lunches + req.dinners ∧
      (plan.map Recipe.id).Nodup ∧
      (∀ r ∈ plan, r.id ∉ hist.map (fun p => p.1)) ∧
      plan.countP isBeef ≤ 1 ∧
      (∃ r ∈ plan, requiredCuisine r = true) ∧
      resp.updatedHistory = hist ++ plan.map (fun r => (r.id, now)) := by
  rcases generate_ok_inv h with
    ⟨bout, lout, dout, ens, hB, hL, hD, hE, hmeals, hshop, hhist⟩
  obtain ⟨hlen, hch, hnodup, hmemrec, hBm, hLm, hDm, hbeef⟩ :=
    picks_facts hpB hpL hpD hB hL hD
  rw [hch] at hE
  obtain ⟨g, hg, hgmt, hnd', hrec', hbeef', hcui'⟩ :=
    ensure_facts hpE hnodup hmemrec hbeef hE
  have hgsplit : ens.1 = bout.1.map g ++ lout.1.map g ++ dout.1.map g := by
    rw [hg, List.map_append, List.map_append]
  have hBu : ∀ r ∈ bout.1.map g, r.mealType = .breakfast := by
    intro r hr
    rcases List.mem_map.mp hr with ⟨u, hu, hur⟩
    have hu' : u ∈ bout.1 ++ lout.1 ++ dout.1 :=
      List.mem_append_left _ (List.mem_append_left _ hu)
    rw [← hur, hgmt u hu']
    exact hBm u hu
  have hLu : ∀ r ∈ lout.1.map g, r.mealType = .lunch := by
    intro r hr
    rcases List.mem_map.mp hr with ⟨u, hu, hur⟩
    have hu' : u ∈ bout.1 ++ lout.1 ++ dout.1 :=
      List.mem_append_left _ (List.mem_append_right _ hu)
    rw [← hur, hgmt u hu']
    exact hLm u hu
  have hDu : ∀ r ∈ dout.1.map g, r.mealType = .dinner := by
    intro r hr
    rcases List.mem_map.mp hr with ⟨u, hu, hur⟩
    have hu' : u ∈ bout.1 ++ lout.1 ++ dout.1 := List.mem_append_right _ hu
    rw [← hur, hgmt u hu']
    exact hDm u hu
  obtain ⟨fB, fL, fD⟩ := filter_blocks _ _ _ hBu hLu hDu
  rw [hgsplit] at hmeals
  rw [fB, fL, fD] at hmeals
  have hrecipes : resp.meals.map PlannedMeal.recipe = ens.1 := by
    rw [hmeals, List.map_append, List.map_append, addMeals_map_recipe,
      addMeals_map_recipe, addMeals_map_recipe, hgsplit]
  refine ⟨ens.1, hrecipes, ?_, hnd', hrec', hbeef', hcui', ?_⟩
  · have hml : resp.meals.length = ens.1.length := by
      rw [← hrecipes, List.length_map]
    rw [hml, hg, List.length_map, hlen]
  · rw [hhist]
    exact history_fold_append now ens.1 hist hrec' hnd'

/-! ### Claim theorems -/

/-- C1: for every request, history snapshot and outcome of the random
shuffles, if `generateWeeklyPlan` returns successfully then at most one
recipe in the returned plan (`meals`) carries the protein tag "beef". -/
theorem C1_beef_cap (catalog : List Recipe) (req : PlannerRequest)
    (hist : HistoryRecord) (shufB shufL shufD : List Recipe)
    (eShufs : Nat → List Recipe) (dateFmt : Nat → String) (now : Int)
    (resp : PlannerResponse)
    (hpB : List.Perm shufB
      (candidatesFor catalog .breakfast (hist.map (fun p => p.1))))
    (hpL : List.Perm shufL
      (candidatesFor catalog .lunch (hist.map (fun p => p.1))))
    (hpD : List.Perm shufD
      (candidatesFor catalog .dinner (hist.map (fun p => p.1))))
    (hpE : ∀ j, List.Perm (eShufs j) catalog)
    (h : generateWeeklyPlan req hist shufB shufL shufD eShufs dateFmt now =
      .ok resp) :
    resp.meals.countP (fun m => m.recipe.protein == "beef") ≤ 1 := by
  obtain ⟨plan, hrec, _, _, _, hbeef, _, _⟩ :=
    generate_plan_facts hpB hpL hpD hpE h
  have heq : resp.meals.countP (fun m => m.recipe.protein == "beef") =
      plan.countP isBeef := by
    rw [← hrec, List.countP_map]
    rfl
  rw [heq]
  exact hbeef

/-- A one-recipe witness catalog: a single Spanish breakfast recipe. -/
def wSpanishBreakfast : Recipe := ⟨"b1", .breakfast, "spanish", "egg", []⟩

/-- Witness catalog. -/
def wCatalog : List Recipe := [wSpanishBreakfast]

/-- Witness request: one breakfast, nothing else. -/
def wRequest : PlannerRequest := ⟨1, 0, 0, none⟩

/-- The response the witness run produces. -/
def wResponse : PlannerResponse :=
  ⟨[⟨0, .breakfast, wSpanishBreakfast, ""⟩], [], [("b1", 0)]⟩

theorem C1_beef_cap_witness :
    (generateWeeklyPlan wRequest [] [wSpanishBreakfast] [] []
        (fun _ => wCatalog) (fun _ => "") 0 = .ok wResponse) ∧
    wResponse.meals.countP (fun m => m.recipe.protein == "beef") ≤ 1 :=
  ⟨rfl, C1_beef_cap wCatalog wRequest [] [wSpanishBreakfast] [] []
    (fun _ => wCatalog) (fun _ => "") 0 wResponse
    (List.Perm.refl _) (List.Perm.refl _) (List.Perm.refl _)
    (fun _ => List.Perm.refl _) rfl⟩

/-- C2: for every request and history snapshot, a successful
`generateWeeklyPlan` returns `breakfasts + lunches + dinners` meals with
pairwise distinct recipe identifiers. -/
theorem C2_length_distinct (catalog : List Recipe) (req : PlannerRequest)
    (hist : HistoryRecord) (shufB shufL shufD : List Recipe)
    (eShufs : Nat → List Recipe) (dateFmt : Nat → String) (now : Int)
    (resp : PlannerResponse)
    (hpB : List.Perm shufB
      (candidatesFor catalog .breakfast (hist.map (fun p => p.1))))
    (hpL : List.Perm shufL
      (candidatesFor catalog .lunch (hist.map (fun p => p.1))))
    (hpD : List.Perm shufD
      (candidatesFor catalog .dinner (hist.map (fun p => p.1))))
    (hpE : ∀ j, List.Perm (eShufs j) catalog)
    (h : generateWeeklyPlan req hist shufB shufL shufD eShufs dateFmt now =
      .ok resp) :
    resp.meals.length = req.breakfasts + req.lunches + req.dinners ∧
    (resp.meals.map (fun m => m.recipe.id)).Nodup := by
  obtain ⟨plan, hrec, hlen, hnodup, _, _, _, _⟩ :=
    generate_plan_facts hpB hpL hpD hpE h
  refine ⟨hlen, ?_⟩
  have heq : resp.meals.map (fun m => m.recipe.id) = plan.map Recipe.id := by
    rw [← hrec, List.map_map]
    rfl
  rw [heq]
  exact hnodup

theorem C2_length_distinct_witness :
    (generateWeeklyPlan wRequest [] [wSpanishBreakfast] [] []
        (fun _ => wCatalog) (fun _ => "") 0 = .ok wResponse) ∧
    (wResponse.meals.length = 1 + 0 + 0 ∧
      (wResponse.meals.map (fun m => m.recipe.id)).Nodup) :=
  ⟨rfl, C2_length_distinct wCatalog wRequest [] [wSpanishBreakfast] [] []
    (fun _ => wCatalog) (fun _ => "") 0 wResponse
    (List.Perm.refl _) (List.Perm.refl _) (List.Perm.refl _)
    (fun _ => List.Perm.refl _) rfl⟩

/-- C3: if the catalog holds a required-cuisine recipe whose meal type is
represented in the plan, a successful `generateWeeklyPlan` returns a plan
containing at least one recipe with cuisine "spanish" or "mexican".  (As the
proof shows, every successful plan does.) -/
theorem C3_required_cuisine (catalog : List Recipe) (req : PlannerRequest)
    (hist : HistoryRecord) (shufB shufL shufD : List Recipe)
    (eShufs : Nat → List Recipe) (dateFmt : Nat → String) (now : Int)
    (resp : PlannerResponse)
    (hpB : List.Perm shufB
      (candidatesFor catalog .breakfast (hist.map (fun p => p.1))))
    (hpL : List.Perm shufL
      (candidatesFor catalog .lunch (hist.map (fun p => p.1))))
    (hpD : List.Perm shufD
      (candidatesFor catalog .dinner (hist.map (fun p => p.1))))
    (hpE : ∀ j, List.Perm (eShufs j) catalog)
    (hcat : ∃ r ∈ catalog, requiredCuisine r = true ∧
      ∃ m ∈ resp.meals, m.recipe.mealType = r.mealType)
    (h : generateWeeklyPlan req hist shufB shufL shufD eShufs dateFmt now =
      .ok resp) :
    ∃ m ∈ resp.meals, requiredCuisine m.recipe = true := by
  obtain ⟨plan, hrec, _, _, _, _, hcui, _⟩ :=
    generate_plan_facts hpB hpL hpD hpE h
  rcases hcui with ⟨r, hr, hreq⟩
  rw [← hrec] at hr
  rcases List.mem_map.mp hr with ⟨m, hm, hmr⟩
  exact ⟨m, hm, by rw [hmr]; exact hreq⟩

theorem C3_required_cuisine_witness :
    (generateWeeklyPlan wRequest [] [wSpanishBreakfast] [] []
        (fun _ => wCatalog) (fun _ => "") 0 = .ok wResponse) ∧
    (∃ r ∈ wCatalog, requiredCuisine r = true ∧
      ∃ m ∈ wResponse.meals, m.recipe.mealType = r.mealType) ∧
    (∃ m ∈ wResponse.meals, requiredCuisine m.recipe = true) :=
  ⟨rfl, by decide,
    C3_required_cuisine wCatalog wRequest [] [wSpanishBreakfast] [] []
      (fun _ => wCatalog) (fun _ => "") 0 wResponse
      (List.Perm.refl _) (List.Perm.refl _) (List.Perm.refl _)
      (fun _ => List.Perm.refl _) (by decide) rfl⟩

/-- C4: no identifier that is a key of the input history snapshot appears
among the recipes of a successfully returned plan. -/
theorem C4_no_recent_repeat (catalog : List Recipe) (req : PlannerRequest)
    (hist : HistoryRecord) (shufB shufL shufD : List Recipe)
    (eShufs : Nat → List Recipe) (dateFmt : Nat → String) (now : Int)
    (resp : PlannerResponse)
    (hpB : List.Perm shufB
      (candidatesFor catalog .breakfast (hist.map (fun p => p.1))))
    (hpL : List.Perm shufL
      (candidatesFor catalog .lunch (hist.map (fun p => p.1))))
    (hpD : List.Perm shufD
      (candidatesFor catalog .dinner (hist.map (fun p => p.1))))
    (hpE : ∀ j, List.Perm (eShufs j) catalog)
    (h : generateWeeklyPlan req hist shufB shufL shufD eShufs dateFmt now =
      .ok resp) :
    ∀ p ∈ hist, ∀ m ∈ resp.meals, m.recipe.id ≠ p.1 := by
  obtain ⟨plan, hrec, _, _, hfresh, _, _, _⟩ :=
    generate_plan_facts hpB hpL hpD hpE h
  intro p hp m hm heq
  have hmem : m.recipe ∈ plan := by
    rw [← hrec]
    exact List.mem_map_of_mem PlannedMeal.recipe hm
  exact hfresh m.recipe hmem
    (heq ▸ List.mem_map_of_mem (fun q => q.1) hp)

theorem C4_no_recent_repeat_witness :
    (generateWeeklyPlan wRequest [("old", 5)] [wSpanishBreakfast] [] []
        (fun _ => wCatalog) (fun _ => "") 0 =
      .ok ⟨[⟨0, .breakfast, wSpanishBreakfast, ""⟩], [],
        [("old", 5), ("b1", 0)]⟩) ∧
    (∀ p ∈ ([("old", 5)] : HistoryRecord),
      ∀ m ∈ (⟨[⟨0, .breakfast, wSpanishBreakfast, ""⟩], [],
        [("old", 5), ("b1", 0)]⟩ : PlannerResponse).meals, m.recipe.id ≠ p.1) :=
  ⟨rfl, C4_no_recent_repeat wCatalog wRequest [("old", 5)] [wSpanishBreakfast]
    [] [] (fun _ => wCatalog) (fun _ => "") 0
    ⟨[⟨0, .breakfast, wSpanishBreakfast, ""⟩], [], [("old", 5), ("b1", 0)]⟩
    (List.Perm.refl _) (List.Perm.refl _) (List.Perm.refl _)
    (fun _ => List.Perm.refl _) rfl⟩

/-- C5: the updated history of a successful `generateWeeklyPlan` is the input
history with every entry unchanged, extended by exactly one entry per
(distinct) recipe used in the plan, all carrying the same timestamp `now`. -/
theorem C5_history_update (catalog : List Recipe) (req : PlannerRequest)
    (hist : HistoryRecord) (shufB shufL shufD : List Recipe)
    (eShufs : Nat → List Recipe) (dateFmt : Nat → String) (now : Int)
    (resp : PlannerResponse)
    (hpB : List.Perm shufB
      (candidatesFor catalog .breakfast (hist.map (fun p => p.1))))
    (hpL : List.Perm shufL
      (candidatesFor catalog .lunch (hist.map (fun p => p.1))))
    (hpD : List.Perm shufD
      (candidatesFor catalog .dinner (hist.map (fun p => p.1))))
    (hpE : ∀ j, List.Perm (eShufs j) catalog)
    (h : generateWeeklyPlan req hist shufB shufL shufD eShufs dateFmt now =
      .ok resp) :
    resp.updatedHistory =
      hist ++ resp.meals.map (fun m => (m.recipe.id, now)) ∧
    (∀ p ∈ hist, p ∈ resp.updatedHistory) ∧
    (resp.meals.map (fun m => m.recipe.id)).Nodup := by
  obtain ⟨plan, hrec, _, hnodup, _, _, _, hhist⟩ :=
    generate_plan_facts hpB hpL hpD hpE h
  have hpairs : resp.meals.map (fun m => (m.recipe.id, now)) =
      plan.map (fun r => (r.id, now)) := by
    rw [← hrec, List.map_map]
    rfl
  have hids : resp.meals.map (fun m => m.recipe.id) = plan.map Recipe.id := by
    rw [← hrec, List.map_map]
    rfl
  refine ⟨by rw [hpairs, hhist], ?_, by rw [hids]; exact hnodup⟩
  intro p hp
  rw [hhist]
  exact List.mem_append_left _ hp

theorem C5_history_update_witness :
    (generateWeeklyPlan wRequest [("old", 5)] [wSpanishBreakfast] [] []
        (fun _ => wCatalog) (fun _ => "") 0 =
      .ok ⟨[⟨0, .breakfast, wSpanishBreakfast, ""⟩], [],
        [("old", 5), ("b1", 0)]⟩) ∧
    ((⟨[⟨0, .breakfast, wSpanishBreakfast, ""⟩], [],
        [("old", 5), ("b1", 0)]⟩ : PlannerResponse).updatedHistory =
      [("old", 5)] ++
        (⟨[⟨0, .breakfast, wSpanishBreakfast, ""⟩], [],
          [("old", 5), ("b1", 0)]⟩ : PlannerResponse).meals.map
          (fun m => (m.recipe.id, 0)) ∧
    (∀ p ∈ ([("old", 5)] : HistoryRecord),
      p ∈ (⟨[⟨0, .breakfast, wSpanishBreakfast, ""⟩], [],
        [("old", 5), ("b1", 0)]⟩ : PlannerResponse).updatedHistory) ∧
    ((⟨[⟨0, .breakfast, wSpanishBreakfast, ""⟩], [],
        [("old", 5), ("b1", 0)]⟩ : PlannerResponse).meals.map
        (fun m => m.recipe.id)).Nodup) :=
  ⟨rfl, C5_history_update wCatalog wRequest [("old", 5)] [wSpanishBreakfast]
    [] [] (fun _ => wCatalog) (fun _ => "") 0
    ⟨[⟨0, .breakfast, wSpanishBreakfast, ""⟩], [], [("old", 5), ("b1", 0)]⟩
    (List.Perm.refl _) (List.Perm.refl _) (List.Perm.refl _)
    (fun _ => List.Perm.refl _) rfl⟩

/-- With `count = 0` the selection loop skips every candidate. -/
theorem pickScan_zero (cands : List Recipe) :
    ∀ (sels : List Recipe) (chosen : List String) (b : Bool),
      pickScan 0 cands sels chosen b = (sels, chosen, b) := by
  induction cands with
  | nil => intro sels chosen b; simp [pickScan]
  | cons r rest ih =>
    intro sels chosen b
    rw [pickScan_cons_full (Nat.zero_le _)]
    exact ih sels chosen b

/-- A zero-count slot selection always succeeds with an empty selection. -/
theorem pickRecipes_zero (mt : MealType) (shuffled : List Recipe)
    (chosen : List String) (b : Bool) :
    pickRecipes mt 0 shuffled chosen b = .ok ([], chosen, b) := by
  unfold pickRecipes
  rw [pickScan_zero]
  simp

/-- C10: for the all-zero request and every history snapshot and every shuffle
outcome, `generateWeeklyPlan` never returns the (trivially empty) plan: the
empty combined selection has no required-cuisine recipe and offers no entry to
substitute, so it always fails with the No-Required-Cuisine-Available
error. -/
theorem C10_zero_request_fails (weekOf : Option String) (hist : HistoryRecord)
    (shufB shufL shufD : List Recipe) (eShufs : Nat → List Recipe)
    (dateFmt : Nat → String) (now : Int) :
    generateWeeklyPlan ⟨0, 0, 0, weekOf⟩ hist shufB shufL shufD eShufs
      dateFmt now = .error noCuisineMsg := by
  unfold generateWeeklyPlan
  rw [pickRecipes_zero]
  simp only [Bind.bind, Except.bind]
  rw [pickRecipes_zero]
  simp only [Except.bind]
  rw [pickRecipes_zero]
  simp only [Except.bind]
  simp [ensureSpanishOrMexican, ensureLoop]

/-- The two beef-only dinner recipes of the C9 scenario catalog. -/
def wBeefDinner1 : Recipe := ⟨"bd1", .dinner, "american", "beef", []⟩

/-- Second beef dinner of the C9 scenario catalog. -/
def wBeefDinner2 : Recipe := ⟨"bd2", .dinner, "tex", "beef", []⟩

/-- The C9 scenario catalog: two beef dinners and nothing else. -/
def wBeefCatalog : List Recipe := [wBeefDinner1, wBeefDinner2]

/-- C9: (a) whenever fewer than `count` candidates are accepted after the
whole scan, `pickRecipes` fails with the fixed message, which names the meal
type as a substring; (b) with empty history and a catalog whose only dinners
are two beef-tagged recipes, a request for two dinners fails with the
Insufficient-Candidates error for every shuffle outcome. -/
theorem C9_insufficient_candidates :
    (∀ (mt : MealType) (count : Nat) (shuffled : List Recipe)
      (chosen : List String) (b : Bool),
      (pickScan count shuffled [] chosen b).1.length < count →
      pickRecipes mt count shuffled chosen b = .error (insufficientMsg mt) ∧
        ∃ s t, insufficientMsg mt = s ++ mealTypeStr mt ++ t) ∧
    (∀ (shufD : List Recipe) (eShufs : Nat → List Recipe)
      (dateFmt : Nat → String) (now : Int),
      List.Perm shufD (candidatesFor wBeefCatalog .dinner []) →
      generateWeeklyPlan ⟨0, 0, 2, none⟩ [] [] [] shufD eShufs dateFmt now =
        .error (insufficientMsg .dinner)) := by
  constructor
  · intro mt count shuffled chosen b hlt
    refine ⟨?_, "Not enough ",
      " recipes available without repeats or beef overage.", rfl⟩
    unfold pickRecipes
    rw [if_pos hlt]
  · intro shufD eShufs dateFmt now hperm
    have hbeefall : ∀ r ∈ shufD, isBeef r = true := by
      intro r hr
      have : r ∈ candidatesFor wBeefCatalog .dinner [] := hperm.mem_iff.mp hr
      have hcat : r ∈ wBeefCatalog := (mem_candidatesFor this).1
      rcases List.mem_cons.mp hcat with h | h
      · rw [h]; rfl
      · rcases List.mem_cons.mp h with h | h
        · rw [h]; rfl
        · exact absurd h (by simp)
    have herr : pickRecipes .dinner 2 shufD [] false =
        .error (insufficientMsg .dinner) := by
      rcases pickScan_spec 2 shufD [] [] false with ⟨new, e1, _, e3, _⟩
      have hbeefnew : ∀ r ∈ new, isBeef r = true :=
        fun r hr => hbeefall r (e3 r hr).1
      have hcount := pickScan_beef 2 shufD [] [] false
      rw [e1] at hcount
      simp only [List.nil_append, List.countP_nil, Bool.toNat_false,
        Nat.add_zero, Nat.zero_add] at hcount
      have hcnt : new.countP isBeef = new.length :=
        List.countP_eq_length.mpr hbeefnew
      have hble : ((pickScan 2 shufD [] [] false).2.2).toNat ≤ 1 := by
        cases (pickScan 2 shufD [] [] false).2.2 <;> simp
      have hlen : (pickScan 2 shufD [] [] false).1.length < 2 := by
        rw [e1]
        simp only [List.nil_append]
        omega
      unfold pickRecipes
      rw [if_pos hlen]
    unfold generateWeeklyPlan
    rw [pickRecipes_zero]
    simp only [Bind.bind, Except.bind]
    rw [pickRecipes_zero]
    simp only [Except.bind]
    rw [herr]

theorem C9_insufficient_candidates_witness :
    (List.Perm [wBeefDinner2, wBeefDinner1]
      (candidatesFor wBeefCatalog .dinner [])) ∧
    generateWeeklyPlan ⟨0, 0, 2, none⟩ [] [] [] [wBeefDinner2, wBeefDinner1]
      (fun _ => wBeefCatalog) (fun _ => "") 0 =
      .error (insufficientMsg .dinner) :=
  ⟨List.Perm.swap wBeefDinner1 wBeefDinner2 [],
    C9_insufficient_candidates.2 [wBeefDinner2, wBeefDinner1]
      (fun _ => wBeefCatalog) (fun _ => "") 0
      (List.Perm.swap wBeefDinner1 wBeefDinner2 [])⟩

/-! ### Shopping Aggregator invariants -/

theorem insertSorted_perm (le : ShoppingLineItem → ShoppingLineItem → Bool)
    (x : ShoppingLineItem) :
    ∀ l : List ShoppingLineItem, List.Perm (insertSorted le x l) (x :: l) := by
  intro l
  induction l with
  | nil => simp [insertSorted]
  | cons y ys ih =>
    simp only [insertSorted]
    by_cases h : le y x = true
    · rw [if_pos h]
      exact (ih.cons y).trans (List.Perm.swap x y ys)
    · rw [if_neg h]

theorem foldl_insert_perm (le : ShoppingLineItem → ShoppingLineItem → Bool) :
    ∀ (l acc : List ShoppingLineItem),
      List.Perm (l.foldl (fun a x => insertSorted le x a) acc) (acc ++ l) := by
  intro l
  induction l with
  | nil => intro acc; simp
  | cons x xs ih =>
    intro acc
    have step : List.Perm (insertSorted le x acc ++ xs) (acc ++ x :: xs) :=
      ((insertSorted_perm le x acc).append_right xs).trans
        List.perm_middle.symm
    exact ((ih (insertSorted le x acc)).trans step)

/-- The final sort only permutes the aggregated values. -/
theorem sortLineItems_perm (le : ShoppingLineItem → ShoppingLineItem → Bool)
    (l : List ShoppingLineItem) : List.Perm (sortLineItems le l) l := by
  have := foldl_insert_perm le l []
  simpa [sortLineItems] using this

/-- The nested aggregation loop is the flat fold over all ingredient
entries. -/
theorem aggregateMap_eq_flat (meals : List Recipe) :
    aggregateMap meals =
      (meals.flatMap (fun r => r.ingredients)).foldl aggStep [] := by
  suffices h : ∀ (ms : List Recipe) (m : List (String × ShoppingLineItem)),
      ms.foldl (fun acc r => r.ingredients.foldl aggStep acc) m =
        (ms.flatMap (fun r => r.ingredients)).foldl aggStep m by
    exact h meals []
  intro ms
  induction ms with
  | nil => intro m; simp
  | cons r rest ih =>
    intro m
    rw [List.foldl_cons, ih, List.flatMap_cons, List.foldl_append]

/-- Reduction of `aggStep` on a present key. -/
theorem aggStep_some {m : List (String × ShoppingLineItem)} {ing : Ingredient}
    {p : String × ShoppingLineItem}
    (hf : m.find? (fun q => q.1 == toLowerStr ing.item) = some p) :
    aggStep m ing =
      if truthy p.2.quantity && truthy ing.quantity then
        mapSet m (toLowerStr ing.item) ⟨p.2.item,
          some (round2 (p.2.quantity.getD 0 + ing.quantity.getD 0)), p.2.unit⟩
      else
        mapSet m (toLowerStr ing.item) ⟨p.2.item, p.2.quantity.or ing.quantity,
          p.2.unit.or ing.unit⟩ := by
  unfold aggStep
  rw [hf]

/-- Reduction of `aggStep` on an absent key. -/
theorem aggStep_none {m : List (String × ShoppingLineItem)} {ing : Ingredient}
    (hf : m.find? (fun q => q.1 == toLowerStr ing.item) = none) :
    aggStep m ing = m ++ [(toLowerStr ing.item, ⟨ing.item, ing.quantity, ing.unit⟩)] := by
  unfold aggStep
  rw [hf]

/-- `Map.set` on a present key never changes the key list. -/
theorem mapSet_keys (m : List (String × ShoppingLineItem)) (key : String)
    (v : ShoppingLineItem) :
    (mapSet m key v).map Prod.fst = m.map Prod.fst := by
  unfold mapSet
  rw [List.map_map]
  apply List.map_congr_left
  intro p _
  show ((if p.1 == key then (key, v) else p)).1 = p.1
  by_cases h : (p.1 == key) = true
  · rw [if_pos h]
    exact (beq_iff_eq.mp h).symm
  · rw [if_neg h]

/-- One merge step either leaves the key list unchanged (key present) or
appends the new key (key absent). -/
theorem aggStep_keys (m : List (String × ShoppingLineItem)) (ing : Ingredient) :
    (toLowerStr ing.item ∈ m.map Prod.fst ∧
      (aggStep m ing).map Prod.fst = m.map Prod.fst) ∨
    (toLowerStr ing.item ∉ m.map Prod.fst ∧
      (aggStep m ing).map Prod.fst = m.map Prod.fst ++ [toLowerStr ing.item]) := by
  cases hf : m.find? (fun q => q.1 == toLowerStr ing.item) with
  | some p =>
    left
    have hk : toLowerStr ing.item ∈ m.map Prod.fst := by
      have hpe := List.find?_some hf
      have hpe2 : p.1 = toLowerStr ing.item := beq_iff_eq.mp hpe
      exact hpe2 ▸ List.mem_map_of_mem Prod.fst (List.mem_of_find?_eq_some hf)
    refine ⟨hk, ?_⟩
    rw [aggStep_some hf]
    by_cases hq : (truthy p.2.quantity && truthy ing.quantity) = true
    · rw [if_pos hq]
      exact mapSet_keys m (toLowerStr ing.item) _
    · rw [if_neg hq]
      exact mapSet_keys m (toLowerStr ing.item) _
  | none =>
    right
    have hk : toLowerStr ing.item ∉ m.map Prod.fst := by
      intro hmem
      rcases List.mem_map.mp hmem with ⟨q, hq, hqk⟩
      exact absurd (by simpa using hqk)
        (by simpa using List.find?_eq_none.mp hf q hq)
    refine ⟨hk, ?_⟩
    rw [aggStep_none hf]
    simp

/-- Membership in the key list of the aggregation fold. -/
theorem foldl_keys_mem :
    ∀ (ings : List Ingredient) (m : List (String × ShoppingLineItem))
      (k : String),
      (k ∈ (ings.foldl aggStep m).map Prod.fst) ↔
        (k ∈ m.map Prod.fst ∨ k ∈ ings.map (fun i => toLowerStr i.item)) := by
  intro ings
  induction ings with
  | nil => intro m k; simp
  | cons i rest ih =>
    intro m k
    rw [List.foldl_cons]
    rcases aggStep_keys m i with ⟨hmem, hk⟩ | ⟨hmem, hk⟩
    · rw [ih, hk]
      constructor
      · rintro (h | h)
        · exact Or.inl h
        · exact Or.inr (List.mem_cons_of_mem _ h)
      · rintro (h | h)
        · exact Or.inl h
        · rcases List.mem_cons.mp h with h | h
          · exact Or.inl (h ▸ hmem)
          · exact Or.inr h
    · rw [ih, hk]
      constructor
      · rintro (h | h)
        · rcases List.mem_append.mp h with h | h
          · exact Or.inl h
          · simp only [List.mem_singleton] at h
            exact Or.inr (by rw [List.map_cons]; exact h ▸ List.mem_cons_self _ _)
        · exact Or.inr (List.mem_cons_of_mem _ h)
      · rintro (h | h)
        · exact Or.inl (List.mem_append_left _ h)
        · rcases List.mem_cons.mp h with h | h
          · exact Or.inl (List.mem_append_right _ (by simp [h]))
          · exact Or.inr h

/-- The aggregation fold keeps the key list duplicate-free. -/
theorem foldl_keys_nodup :
    ∀ (ings : List Ingredient) (m : List (String × ShoppingLineItem)),
      (m.map Prod.fst).Nodup → ((ings.foldl aggStep m).map Prod.fst).Nodup := by
  intro ings
  induction ings with
  | nil => intro m h; simpa using h
  | cons i rest ih =>
    intro m h
    rw [List.foldl_cons]
    rcases aggStep_keys m i with ⟨_, hk⟩ | ⟨hmem, hk⟩
    · exact ih _ (hk ▸ h)
    · apply ih
      rw [hk]
      simp only [List.nodup_append, List.nodup_singleton]
      exact ⟨h, by simp, by
        intro a ha hb
        simp only [List.mem_singleton] at hb
        exact hmem (hb ▸ ha)⟩

/-- Every stored value's lowercased item equals its key. -/
theorem foldl_item_inv :
    ∀ (ings : List Ingredient) (m : List (String × ShoppingLineItem)),
      (∀ p ∈ m, toLowerStr p.2.item = p.1) →
      ∀ p ∈ ings.foldl aggStep m, toLowerStr p.2.item = p.1 := by
  intro ings
  induction ings with
  | nil => intro m h; simpa using h
  | cons i rest ih =>
    intro m h
    rw [List.foldl_cons]
    apply ih
    cases hf : m.find? (fun p => p.1 == toLowerStr i.item) with
    | some q =>
      have hqe := List.find?_some hf
      have hqk : q.1 = toLowerStr i.item := beq_iff_eq.mp hqe
      have hqm : q ∈ m := List.mem_of_find?_eq_some hf
      have hqinv : toLowerStr q.2.item = q.1 := h q hqm
      rw [aggStep_some hf]
      have hmain : ∀ v : ShoppingLineItem, v.item = q.2.item →
          ∀ p ∈ mapSet m (toLowerStr i.item) v, toLowerStr p.2.item = p.1 := by
        intro v hv p hp
        unfold mapSet at hp
        rcases List.mem_map.mp hp with ⟨u, hu, hup⟩
        have hup2 : (if u.1 == toLowerStr i.item then
            (toLowerStr i.item, v) else u) = p := hup
        by_cases hu1 : (u.1 == toLowerStr i.item) = true
        · rw [if_pos hu1] at hup2
          rw [← hup2]
          show toLowerStr v.item = toLowerStr i.item
          rw [hv, hqinv, hqk]
        · rw [if_neg hu1] at hup2
          exact hup2 ▸ h u hu
      by_cases hc : (truthy q.2.quantity && truthy i.quantity) = true
      · rw [if_pos hc]
        exact hmain _ rfl
      · rw [if_neg hc]
        exact hmain _ rfl
    | none =>
      rw [aggStep_none hf]
      intro p hp
      rcases List.mem_append.mp hp with hp | hp
      · exact h p hp
      · simp only [List.mem_singleton] at hp
        rw [hp]

/-- The multiset of lowercased item names of the output equals the key list
of the aggregation map. -/
theorem aggregateShopping_keys (ms : List Recipe) :
    List.Perm ((aggregateShopping ms).map (fun li => toLowerStr li.item))
      ((aggregateMap ms).map Prod.fst) := by
  have hsort := sortLineItems_perm (fun a b => localeLe a.item b.item)
    ((aggregateMap ms).map (fun p => p.2))
  have hperm1 :
      List.Perm ((aggregateShopping ms).map (fun li => toLowerStr li.item))
        (((aggregateMap ms).map (fun p => p.2)).map
          (fun li => toLowerStr li.item)) :=
    hsort.map _
  have heq : ((aggregateMap ms).map (fun p => p.2)).map
      (fun li => toLowerStr li.item) = (aggregateMap ms).map Prod.fst := by
    rw [List.map_map]
    apply List.map_congr_left
    intro p hp
    have hinv : toLowerStr p.2.item = p.1 := by
      rw [aggregateMap_eq_flat] at hp
      exact foldl_item_inv _ [] (by simp) p hp
    exact hinv
  exact heq ▸ hperm1

/-- C6 (amended): aggregating the same multiset of recipes in any two orders
yields shopping lists with the same multiset of case-insensitive item keys
(in particular the same length); the surviving letter case of the item name,
the unit, and the quantity of a merged line may each depend on the input
order. -/
theorem C6_reorder_keys (ms1 ms2 : List Recipe) (h : List.Perm ms1 ms2) :
    List.Perm ((aggregateShopping ms1).map (fun li => toLowerStr li.item))
      ((aggregateShopping ms2).map (fun li => toLowerStr li.item)) := by
  have hflatp : List.Perm (ms1.flatMap (fun r => r.ingredients))
      (ms2.flatMap (fun r => r.ingredients)) :=
    List.Perm.flatMap_right (fun r => r.ingredients) h
  have hnd1 : ((aggregateMap ms1).map Prod.fst).Nodup := by
    rw [aggregateMap_eq_flat]
    exact foldl_keys_nodup _ [] (by simp)
  have hnd2 : ((aggregateMap ms2).map Prod.fst).Nodup := by
    rw [aggregateMap_eq_flat]
    exact foldl_keys_nodup _ [] (by simp)
  have hkeys : List.Perm ((aggregateMap ms1).map Prod.fst)
      ((aggregateMap ms2).map Prod.fst) := by
    rw [List.perm_ext_iff_of_nodup hnd1 hnd2]
    intro a
    rw [aggregateMap_eq_flat, aggregateMap_eq_flat, foldl_keys_mem,
      foldl_keys_mem]
    simp only [List.map_nil, List.not_mem_nil, false_or]
    exact (hflatp.map (fun i => toLowerStr i.item)).mem_iff
  exact ((aggregateShopping_keys ms1).trans hkeys).trans
    (aggregateShopping_keys ms2).symm

/-- First C6 counterexample recipe: capitalised item, zero quantity, a
unit. -/
def c6RecA : Recipe :=
  ⟨"t1", .dinner, "italian", "none", [⟨"Tomato", some 0, some "cup"⟩]⟩

/-- Second C6 counterexample recipe: lowercase item, nonzero quantity, a
different unit. -/
def c6RecB : Recipe :=
  ⟨"t2", .dinner, "italian", "none", [⟨"tomato", some 5, some "lb"⟩]⟩

/-- C6 counterexample: the two orders of the same two-recipe multiset produce
different outputs — the surviving item casing, the quantity (the JS-falsy
`0` wins over `5` in one order only) and the unit all differ, refuting the
claim that aggregation is invariant under reordering. -/
theorem C6_counterexample :
    List.Perm [c6RecB, c6RecA] [c6RecA, c6RecB] ∧
    aggregateShopping [c6RecA, c6RecB] = [⟨"Tomato", some 0, some "cup"⟩] ∧
    aggregateShopping [c6RecB, c6RecA] = [⟨"tomato", some 5, some "lb"⟩] ∧
    ([⟨"Tomato", some 0, some "cup"⟩] : List ShoppingLineItem) ≠
      [⟨"tomato", some 5, some "lb"⟩] :=
  ⟨List.Perm.swap c6RecA c6RecB [], rfl, rfl, by decide⟩

theorem C6_reorder_keys_witness :
    List.Perm [c6RecB, c6RecA] [c6RecA, c6RecB] ∧
    List.Perm
      ((aggregateShopping [c6RecB, c6RecA]).map (fun li => toLowerStr li.item))
      ((aggregateShopping [c6RecA, c6RecB]).map (fun li => toLowerStr li.item)) :=
  ⟨List.Perm.swap c6RecA c6RecB [],
    C6_reorder_keys [c6RecB, c6RecA] [c6RecA, c6RecB]
      (List.Perm.swap c6RecA c6RecB [])⟩

/-- C7 (amended): when two ingredient entries merge under the same
case-insensitive key, the result keeps the earlier entry's item string and:
if both quantities are present and nonzero, the quantity is their sum rounded
to 2 decimal places and the unit is the earlier entry's; otherwise the
quantity is the earlier entry's when present — even when it is 0 — else the
later entry's, and likewise the unit; if neither entry carries a quantity the
merged item has none. -/
theorem C7_merge_rule (i1 i2 : Ingredient) (r1 r2 : Recipe)
    (h1 : r1.ingredients = [i1]) (h2 : r2.ingredients = [i2])
    (hkey : toLowerStr i2.item = toLowerStr i1.item) :
    ∃ out : ShoppingLineItem,
      aggregateShopping [r1, r2] = [out] ∧
      out.item = i1.item ∧
      ((truthy i1.quantity = true ∧ truthy i2.quantity = true) →
        out.quantity = some (round2 (i1.quantity.getD 0 + i2.quantity.getD 0)) ∧
        out.unit = i1.unit) ∧
      (¬(truthy i1.quantity = true ∧ truthy i2.quantity = true) →
        out.quantity = i1.quantity.or i2.quantity ∧
        out.unit = i1.unit.or i2.unit) ∧
      ((i1.quantity = none ∧ i2.quantity = none) → out.quantity = none) := by
  have hs1 : aggStep [] i1 =
      [(toLowerStr i1.item, ⟨i1.item, i1.quantity, i1.unit⟩)] :=
    aggStep_none rfl
  have hf2 : [(toLowerStr i1.item,
      (⟨i1.item, i1.quantity, i1.unit⟩ : ShoppingLineItem))].find?
        (fun q => q.1 == toLowerStr i2.item) =
      some (toLowerStr i1.item, ⟨i1.item, i1.quantity, i1.unit⟩) := by
    apply List.find?_cons_of_pos
    show (toLowerStr i1.item == toLowerStr i2.item) = true
    rw [hkey]
    exact beq_self_eq_true _
  have hmapset : ∀ v : ShoppingLineItem,
      mapSet [(toLowerStr i1.item,
        (⟨i1.item, i1.quantity, i1.unit⟩ : ShoppingLineItem))]
        (toLowerStr i2.item) v = [(toLowerStr i2.item, v)] := by
    intro v
    unfold mapSet
    rw [List.map_cons, List.map_nil]
    have hc : ((toLowerStr i1.item,
        (⟨i1.item, i1.quantity, i1.unit⟩ : ShoppingLineItem)).1 ==
        toLowerStr i2.item) = true := by
      show (toLowerStr i1.item == toLowerStr i2.item) = true
      rw [hkey]
      exact beq_self_eq_true _
    rw [if_pos hc]
  have hmap : aggregateMap [r1, r2] = aggStep (aggStep [] i1) i2 := by
    unfold aggregateMap
    rw [List.foldl_cons, List.foldl_cons, List.foldl_nil, h1, h2,
      List.foldl_cons, List.foldl_nil, List.foldl_cons, List.foldl_nil]
  have hstep2 := aggStep_some hf2
  by_cases hq : (truthy i1.quantity && truthy i2.quantity) = true
  · refine ⟨⟨i1.item,
      some (round2 (i1.quantity.getD 0 + i2.quantity.getD 0)), i1.unit⟩,
      ?_, rfl, fun _ => ⟨rfl, rfl⟩, ?_, ?_⟩
    · unfold aggregateShopping
      rw [hmap, hs1, hstep2, if_pos hq, hmapset]
      rfl
    · intro hn
      exact absurd ⟨(Bool.and_eq_true _ _).mp hq |>.1,
        (Bool.and_eq_true _ _).mp hq |>.2⟩ hn
    · intro ⟨hn1, _⟩
      rw [hn1] at hq
      simp [truthy] at hq
  · refine ⟨⟨i1.item, i1.quantity.or i2.quantity, i1.unit.or i2.unit⟩,
      ?_, rfl, ?_, fun _ => ⟨rfl, rfl⟩, ?_⟩
    · unfold aggregateShopping
      rw [hmap, hs1, hstep2, if_neg hq, hmapset]
      rfl
    · intro ⟨ht1, ht2⟩
      exact absurd (by rw [ht1, ht2]; rfl) hq
    · intro ⟨hn1, hn2⟩
      show (i1.quantity.or i2.quantity) = none
      rw [hn1, hn2]
      rfl

/-- First C7 counterexample recipe: its sole ingredient carries quantity 0
and a unit. -/
def c7RecA : Recipe :=
  ⟨"c7a", .dinner, "italian", "none", [⟨"pepper", some 0, some "cup"⟩]⟩

/-- Second C7 counterexample recipe: its sole ingredient carries quantity 5
and no unit. -/
def c7RecB : Recipe :=
  ⟨"c7b", .dinner, "italian", "none", [⟨"pepper", some 5, none⟩]⟩

/-- C7 counterexample: the earlier entry's quantity is 0, so per the claim
exactly one entry (the later, quantity 5) "carries a quantity" and the merged
quantity should be 5 — but the code's `existing.quantity ?? ingredient.quantity`
keeps the 0. -/
theorem C7_counterexample :
    aggregateShopping [c7RecA, c7RecB] = [⟨"pepper", some 0, some "cup"⟩] ∧
    some (0 : ℚ) ≠ some 5 :=
  ⟨rfl, by decide⟩

/-- Witness ingredients for the C7 merge-rule theorem. -/
def w7i1 : Ingredient := ⟨"olive oil", none, none⟩

/-- Second witness ingredient for the C7 merge-rule theorem. -/
def w7i2 : Ingredient := ⟨"Olive Oil", none, some "ml"⟩

/-- Witness recipe holding `w7i1`. -/
def w7r1 : Recipe := ⟨"w71", .lunch, "greek", "none", [w7i1]⟩

/-- Witness recipe holding `w7i2`. -/
def w7r2 : Recipe := ⟨"w72", .lunch, "greek", "none", [w7i2]⟩

theorem C7_merge_rule_witness :
    (w7r1.ingredients = [w7i1] ∧ w7r2.ingredients = [w7i2] ∧
      toLowerStr w7i2.item = toLowerStr w7i1.item) ∧
    (∃ out : ShoppingLineItem,
      aggregateShopping [w7r1, w7r2] = [out] ∧
      out.item = w7i1.item ∧
      ((truthy w7i1.quantity = true ∧ truthy w7i2.quantity = true) →
        out.quantity =
          some (round2 (w7i1.quantity.getD 0 + w7i2.quantity.getD 0)) ∧
        out.unit = w7i1.unit) ∧
      (¬(truthy w7i1.quantity = true ∧ truthy w7i2.quantity = true) →
        out.quantity = w7i1.quantity.or w7i2.quantity ∧
        out.unit = w7i1.unit.or w7i2.unit) ∧
      ((w7i1.quantity = none ∧ w7i2.quantity = none) → out.quantity = none)) :=
  ⟨⟨rfl, rfl, rfl⟩, C7_merge_rule w7i1 w7i2 w7r1 w7r2 rfl rfl rfl⟩

/-- C8 (amended): for a selection whose recipe identifiers are pairwise
distinct, the variety repairer is a no-op (selection, chosen set and beef
flag unchanged) when a required-cuisine recipe is already present; otherwise,
on success it substitutes exactly one entry — the first entry in selection
order admitting a valid replacement — in place, with the same meal type, and
changes nothing else in the selection.  (Without distinct identifiers the
substitution replaces every entry sharing the replaced identifier.) -/
theorem C8_repairer (catalog plan : List Recipe) (recent chosen : List String)
    (b : Bool) (shuffles : Nat → List Recipe)
    (hnodup : (plan.map Recipe.id).Nodup)
    (hshuf : ∀ j, List.Perm (shuffles j) catalog) :
    (plan.any requiredCuisine = true →
      ensureSpanishOrMexican plan recent chosen b shuffles =
        .ok (plan, chosen, b)) ∧
    (∀ (plan' : List Recipe) (chosen' : List String) (b' : Bool),
      plan.any requiredCuisine = false →
      ensureSpanishOrMexican plan recent chosen b shuffles =
        .ok (plan', chosen', b') →
      ∃ pre t post cand,
        plan = pre ++ t :: post ∧
        (∀ u ∈ pre, ∀ c ∈ catalog, replacementOk recent chosen b u c = false) ∧
        replacementOk recent chosen b t cand = true ∧
        cand.mealType = t.mealType ∧
        plan' = pre ++ cand :: post) := by
  constructor
  · exact fun hany => ensure_noop hany
  · intro plan' chosen' b' hany hE
    unfold ensureSpanishOrMexican at hE
    rw [if_neg (by simp [hany])] at hE
    rcases ensureLoop_ok hshuf plan 0 chosen b hE with
      ⟨pre, t, post, cand, e1, e2, e3, _, e5, _, _⟩
    obtain ⟨cmt, _, _, _, _⟩ := replacementOk_unpack e3
    refine ⟨pre, t, post, cand, e1, e2, e3, cmt, ?_⟩
    have hids : ((pre ++ t :: post).map Recipe.id).Nodup := e1 ▸ hnodup
    rw [List.map_append, List.map_cons, List.nodup_append] at hids
    obtain ⟨hpre, hcons, hdisj⟩ := hids
    rw [List.nodup_cons] at hcons
    have hfpre : pre.map (fun r => if r.id == t.id then cand else r) = pre := by
      have : pre.map (fun r => if r.id == t.id then cand else r) =
          pre.map id := by
        apply List.map_congr_left
        intro u hu
        have hne : u.id ≠ t.id := by
          intro heq
          exact hdisj (List.mem_map_of_mem Recipe.id hu)
            (heq ▸ List.mem_cons_self _ _)
        show (if u.id == t.id then cand else u) = u
        rw [if_neg (by simpa using hne)]
      rw [this, List.map_id]
    have hfpost : post.map (fun r => if r.id == t.id then cand else r) = post := by
      have : post.map (fun r => if r.id == t.id then cand else r) =
          post.map id := by
        apply List.map_congr_left
        intro u hu
        have hne : u.id ≠ t.id := by
          intro heq
          exact hcons.1 (heq ▸ List.mem_map_of_mem Recipe.id hu)
        show (if u.id == t.id then cand else u) = u
        rw [if_neg (by simpa using hne)]
      rw [this, List.map_id]
    have hft : (if t.id == t.id then cand else t) = cand := by
      rw [if_pos (beq_self_eq_true t.id)]
    rw [e5, e1, List.map_append, List.map_cons, hfpre, hfpost, hft]

/-- C8 counterexample recipe, occurring twice in the selection. -/
def c8Dup : Recipe := ⟨"r1", .dinner, "italian", "chicken", []⟩

/-- C8 counterexample replacement candidate. -/
def c8Span : Recipe := ⟨"c1", .dinner, "spanish", "chicken", []⟩

/-- C8 counterexample: on a selection containing the same recipe twice, the
repairer's `plan.map(r => r.id === toReplace.id ? candidate : r)` replaces
both occurrences — two entries change, refuting "substitutes exactly one
entry ... and makes no other change to the selection". -/
theorem C8_counterexample :
    ensureSpanishOrMexican [c8Dup, c8Dup] [] ["r1"] false (fun _ => [c8Span]) =
      .ok ([c8Span, c8Span], ["c1"], false) ∧
    ((List.zip [c8Dup, c8Dup] [c8Span, c8Span]).countP
      (fun p => !(p.1 == p.2))) = 2 :=
  ⟨rfl, by decide⟩

/-- Witness selection entry for C8: a non-required-cuisine dinner. -/
def w8Italian : Recipe := ⟨"it1", .dinner, "italian", "chicken", []⟩

/-- Witness catalog entry for C8: a Spanish dinner. -/
def w8Spanish : Recipe := ⟨"sp1", .dinner, "spanish", "chicken", []⟩

theorem C8_repairer_witness :
    (([w8Italian].map Recipe.id).Nodup ∧
      ∀ j : Nat, List.Perm ((fun _ => [w8Spanish]) j) [w8Spanish]) ∧
    (([w8Italian].any requiredCuisine = true →
      ensureSpanishOrMexican [w8Italian] [] ["it1"] false
        (fun _ => [w8Spanish]) = .ok ([w8Italian], ["it1"], false)) ∧
    (∀ (plan' : List Recipe) (chosen' : List String) (b' : Bool),
      [w8Italian].any requiredCuisine = false →
      ensureSpanishOrMexican [w8Italian] [] ["it1"] false
        (fun _ => [w8Spanish]) = .ok (plan', chosen', b') →
      ∃ pre t post cand,
        [w8Italian] = pre ++ t :: post ∧
        (∀ u ∈ pre, ∀ c ∈ [w8Spanish],
          replacementOk [] ["it1"] false u c = false) ∧
        replacementOk [] ["it1"] false t cand = true ∧
        cand.mealType = t.mealType ∧
        plan' = pre ++ cand :: post)) :=
  ⟨⟨by decide, fun _ => List.Perm.refl _⟩,
    C8_repairer [w8Spanish] [w8Italian] [] ["it1"] false (fun _ => [w8Spanish])
      (by decide) (fun _ => List.Perm.refl _)⟩

end MedPlanner
